import Mathlib

set_option maxHeartbeats 1000000

/-
Verification development for the StagehandPage core (src/lib/StagehandPage.ts):
the frame-ordinal allocator, the encoded element address scheme, the CDP session
registry, the DOM-settlement detector, and the shadow-piercing selector engine.

JavaScript `Map` and `Set` objects are embedded as association lists / lists in
insertion order; a `Map` never holds two entries with the same key, and a `Set`
never holds duplicates, so first-occurrence deletion and filtering coincide on
the states the program actually reaches.
-/

namespace Stagehand

/-! ## Association-list embedding of JavaScript `Map`, and `Set` operations -/

/-- The embedding of `Map.get`: the value stored at `key`, if any. -/
def alistGet {K V : Type} [DecidableEq K] : List (K × V) → K → Option V
  | [], _ => none
  | (k, v) :: rest, key => if k = key then some v else alistGet rest key

/-- The embedding of `Map.set`: overwrite the entry for `key` in place, or
append a new entry when the key is absent (JavaScript insertion order). -/
def alistSet {K V : Type} [DecidableEq K] : List (K × V) → K → V → List (K × V)
  | [], key, val => [(key, val)]
  | (k, v) :: rest, key, val =>
    if k = key then (key, val) :: rest else (k, v) :: alistSet rest key val

/-- The embedding of `Map.delete`: remove the entry stored at `key`, if any. -/
def alistDelete {K V : Type} [DecidableEq K] : List (K × V) → K → List (K × V)
  | [], _ => []
  | (k, v) :: rest, key => if k = key then rest else (k, v) :: alistDelete rest key

/-- The embedding of `Set.add`: append the element when it is not yet present. -/
def setAdd (s : List String) (x : String) : List String :=
  if x ∈ s then s else s ++ [x]

/-- The embedding of `Set.delete`: remove the (unique) occurrence of `x`. -/
def setDelete : List String → String → List String
  | [], _ => []
  | y :: rest, x => if y = x then rest else y :: setDelete rest x

/-! ## Frame Ordinal Allocator

Embeds `fidOrdinals : Map<string | undefined, number>`, initialised to
`new Map([[undefined, 0]])`, together with `ordinalForFrameId` and
`resetFrameOrdinals` from `StagehandPage`. -/

/-- The `fidOrdinals` map: frame id (or `undefined`, i.e. `none`) to ordinal. -/
structure OrdinalState where
  fidOrdinals : List (Option String × Nat)
  deriving Repr, DecidableEq

/-- The state a fresh `StagehandPage` starts with: `undefined ↦ 0`. -/
def initialOrdinals : OrdinalState := ⟨[(none, 0)]⟩

/-- The embedding of `ordinalForFrameId`: `undefined` yields 0 immediately; a
cached frame id yields its recorded ordinal; a new frame id is assigned
`fidOrdinals.size` and recorded. Returns the ordinal and the updated state. -/
def ordinalForFrameId (st : OrdinalState) (fid : Option String) : Nat × OrdinalState :=
  match fid with
  | none => (0, st)
  | some _ =>
    match alistGet st.fidOrdinals fid with
    | some cached => (cached, st)
    | none =>
      let next := st.fidOrdinals.length
      (next, ⟨alistSet st.fidOrdinals fid next⟩)

/-- The embedding of `resetFrameOrdinals`: replace the map by `undefined ↦ 0`. -/
def resetFrameOrdinals (_st : OrdinalState) : OrdinalState := initialOrdinals

/-! ## Selector-engine registration guard

Embeds the module-level flag `stagehandSelectorRegistered` and
`ensureStagehandSelectorEngine`; `hostRegistrations` counts how many times
`selectors.register` actually reached the host. -/

/-- Process-wide registration state for the custom selector engine. -/
structure RegistryState where
  registered : Bool
  hostRegistrations : Nat
  deriving Repr, DecidableEq

/-- State at process start: flag down, no registration performed. -/
def initialRegistry : RegistryState := ⟨false, 0⟩

/-- The embedding of `ensureStagehandSelectorEngine`: return immediately when
the flag is set, otherwise raise the flag and register with the host. -/
def ensureStagehandSelectorEngine (st : RegistryState) : RegistryState :=
  if st.registered then st
  else { registered := true, hostRegistrations := st.hostRegistrations + 1 }

/-- `n` successive invocations of `ensureStagehandSelectorEngine` starting at
process start. -/
def iterateEnsureSelector : Nat → RegistryState
  | 0 => initialRegistry
  | n + 1 => ensureStagehandSelectorEngine (iterateEnsureSelector n)

/-! ## Settlement Detector

Embeds the closure state of `_waitForSettledDom`: the `inflight` set, the
`meta` map, the `docByFrame` map, the quiet-window timer and the resolution of
the promise. Time is in milliseconds (`Date.now()` values). Timer handles are
embedded by their firing deadline; `resolvedAt` records the time at which
`resolveDone` ran `resolve()` (the promise has no rejection path at all). -/

/-- Constant from `setTimeout(() => resolveDone(), 500)`: the quiet window. -/
def quietWindowMs : Nat := 500

/-- Constant from `setInterval(..., 500)`: the stalled-request sweep interval. -/
def sweepIntervalMs : Nat := 500

/-- Constant from `now - m.start > 2_000`: the stall threshold. -/
def stallThresholdMs : Nat := 2000

/-- Entry of the `meta` map: the request's URL and its start timestamp. -/
structure ReqMeta where
  url : String
  start : Nat
  deriving Repr, DecidableEq

/-- The mutable closure state of one `_waitForSettledDom` call. -/
structure DetectorState where
  inflight : List String
  meta : List (String × ReqMeta)
  docByFrame : List (String × String)
  quietTimer : Option Nat
  resolvedAt : Option Nat
  deriving Repr, DecidableEq

/-- The embedding of `clearQuiet`: cancel a pending quiet-window timer. -/
def clearQuiet (st : DetectorState) : DetectorState := { st with quietTimer := none }

/-- The embedding of `maybeQuiet`: arm a quiet-window timer (deadline
`now + 500`) when `inflight` is empty and no timer is pending. -/
def maybeQuiet (now : Nat) (st : DetectorState) : DetectorState :=
  if st.inflight.isEmpty ∧ st.quietTimer = none then
    { st with quietTimer := some (now + quietWindowMs) }
  else st

/-- The embedding of `finishReq`: when `id` is absent from `inflight` the
whole state is left untouched (`if (!inflight.delete(id)) return`); otherwise
remove it from `inflight` and `meta`, drop every `docByFrame` entry whose value
is `id`, cancel the quiet timer and re-arm it if `inflight` is now empty. -/
def finishReq (now : Nat) (st : DetectorState) (id : String) : DetectorState :=
  if id ∈ st.inflight then
    maybeQuiet now (clearQuiet
      { st with
        inflight := setDelete st.inflight id,
        meta := alistDelete st.meta id,
        docByFrame := st.docByFrame.filter (fun p => p.2 ≠ id) })
  else st

/-- The fields of a `Network.requestWillBeSent` event the handler reads:
`requestId`, `request.url`, `type` and `frameId`. The resource type is kept as
the protocol string (`"Document"`, `"WebSocket"`, ...). -/
structure RequestEvent where
  requestId : String
  url : String
  resourceType : String
  frameId : Option String
  deriving Repr, DecidableEq

/-- The embedding of `onRequest`: ignore WebSocket / EventSource initiations
entirely; otherwise record the request in `inflight` and `meta`, track Document
requests with a truthy frame id in `docByFrame`, and cancel the quiet timer. -/
def onRequest (now : Nat) (st : DetectorState) (e : RequestEvent) : DetectorState :=
  if e.resourceType = "WebSocket" ∨ e.resourceType = "EventSource" then st
  else
    let st1 := { st with
      inflight := setAdd st.inflight e.requestId,
      meta := alistSet st.meta e.requestId ⟨e.url, now⟩ }
    let st2 :=
      match e.frameId with
      | some f =>
        if e.resourceType = "Document" ∧ f ≠ "" then
          { st1 with docByFrame := alistSet st1.docByFrame f e.requestId }
        else st1
      | none => st1
    clearQuiet st2

/-- The embedding of `onDataUrl` (`Network.responseReceived`): complete the
request only when the response URL starts with `data:`. -/
def onDataUrl (now : Nat) (st : DetectorState) (requestId url : String) : DetectorState :=
  if url.startsWith "data:" then finishReq now st requestId else st

/-- The embedding of `onFrameStop` (`Page.frameStoppedLoading`): when the frame
has a tracked (truthy) document request id, complete that request. -/
def onFrameStop (now : Nat) (st : DetectorState) (frameId : String) : DetectorState :=
  match alistGet st.docByFrame frameId with
  | some id => if id = "" then st else finishReq now st id
  | none => st

/-- The embedding of one firing of the stalled-request sweep: every `meta`
entry whose age `now - start` exceeds 2000 ms is deleted from `inflight` and
`meta` (deleting the entry under iteration is safe on a JavaScript `Map`),
then `maybeQuiet` re-arms the quiet-window check. -/
def sweepOnce (now : Nat) (st : DetectorState) : DetectorState :=
  let staleIds :=
    (st.meta.filter (fun p => decide (stallThresholdMs < now - p.2.start))).map Prod.fst
  maybeQuiet now
    { st with
      inflight := st.inflight.filter (fun id => decide (id ∉ staleIds)),
      meta := st.meta.filter (fun p => decide (¬ stallThresholdMs < now - p.2.start)) }

/-- The embedding of `resolveDone` at time `now`: tear down the timers and run
`resolve()`. `resolve` is the only completion the promise ever receives. -/
def resolveDone (now : Nat) (st : DetectorState) : DetectorState :=
  { st with quietTimer := none, resolvedAt := some now }

/-- One occurrence on the event loop while `_waitForSettledDom` is pending:
either a CDP event delivered to a handler, or one of the detector's own timers
firing. -/
inductive DetEvent where
  | request (e : RequestEvent)
  | loadingFinished (requestId : String)
  | loadingFailed (requestId : String)
  | servedFromCache (requestId : String)
  | responseReceived (requestId : String) (url : String)
  | frameStoppedLoading (frameId : String)
  | quietFire
  | sweepFire
  deriving Repr, DecidableEq

/-- Process one occurrence at time `now`. After `resolveDone` has run, all
listeners are off and all timers cleared, so nothing further has any effect.
The quiet timer fires only when armed, at its recorded deadline. -/
def step (st : DetectorState) (now : Nat) (ev : DetEvent) : DetectorState :=
  if st.resolvedAt.isSome then st
  else
    match ev with
    | .request e => onRequest now st e
    | .loadingFinished id => finishReq now st id
    | .loadingFailed id => finishReq now st id
    | .servedFromCache id => finishReq now st id
    | .responseReceived id url => onDataUrl now st id url
    | .frameStoppedLoading f => onFrameStop now st f
    | .quietFire => if st.quietTimer = some now then resolveDone now st else st
    | .sweepFire => sweepOnce now st

/-- The state right after the promise executor body ran (at time 0): empty
collections, then the initial `maybeQuiet()` call arms the quiet timer. -/
def initDetector : DetectorState :=
  maybeQuiet 0 ⟨[], [], [], none, none⟩

/-- Process a timed list of occurrences in order. -/
def runEvents (st : DetectorState) (evs : List (Nat × DetEvent)) : DetectorState :=
  evs.foldl (fun s te => step s te.1 te.2) st

/-- The guard timer fires at time `timeout`: it always calls `resolveDone`
(the `inflight.size` test only gates a log line). -/
def fireGuard (timeout : Nat) (st : DetectorState) : DetectorState :=
  if st.resolvedAt.isSome then st else resolveDone timeout st

/-- A complete run of one `_waitForSettledDom(timeout)` call over an arbitrary
schedule of occurrences, ended by the guard timer firing at `timeout`. -/
def runWithGuard (timeout : Nat) (evs : List (Nat × DetEvent)) : DetectorState :=
  fireGuard timeout (runEvents initDetector evs)

/-! ## Session Registry

Embeds `getCDPClient` and the `cdpClients` cache. The underlying engine
(`context.newCDPSession`) is a parameter: for each target it either yields a
fresh session or fails with an error message. The fuel argument bounds the
recursion through the fallback call `getCDPClient(this.page)`; exhausting it
(`none`) corresponds to the non-terminating run the source would perform if
the main target itself kept failing with the fallback message. Besides the
session and the updated cache, the result carries the list of targets that
were actually passed to the engine, so "without re-attempting creation" is
expressible. -/

/-- The substring tested by `msg.includes(...)` in the fallback branch. -/
def sessionErrorNeedle : String := "does not have a separate CDP session"

/-- Whether `sub` occurs at the start of `s`. -/
def leadingMatch : List Char → List Char → Bool
  | [], _ => true
  | _ :: _, [] => false
  | c :: cs, d :: ds => c = d && leadingMatch cs ds

/-- Whether `sub` occurs contiguously anywhere in `s`. -/
def infixMatch (sub : List Char) : List Char → Bool
  | [] => leadingMatch sub []
  | d :: rest => leadingMatch sub (d :: rest) || infixMatch sub rest

/-- The embedding of JavaScript `String.prototype.includes`. -/
def jsIncludes (s sub : String) : Bool := infixMatch sub.data s.data

/-- The embedding of `getCDPClient(target)`: return the cached session when
present; otherwise ask the engine; on failure whose message includes
`sessionErrorNeedle`, fall back to `getCDPClient(main)` and cache the resulting
session under `target` as an alias; any other failure propagates unchanged. -/
def getCDPClient {Target Session : Type} [DecidableEq Target]
    (engine : Target → Except String Session) (main : Target) :
    Nat → List (Target × Session) → Target →
    Option (Except String (Session × List (Target × Session) × List Target))
  | 0, _, _ => none
  | fuel + 1, cache, target =>
    match alistGet cache target with
    | some s => some (.ok (s, cache, []))
    | none =>
      match engine target with
      | .ok s => some (.ok (s, alistSet cache target s, [target]))
      | .error msg =>
        if jsIncludes msg sessionErrorNeedle then
          match getCDPClient engine main fuel cache main with
          | none => none
          | some (.error e) => some (.error e)
          | some (.ok (s, cache', calls)) =>
            some (.ok (s, alistSet cache' target s, target :: calls))
        else some (.error msg)

/-- Example engine used to instantiate the registry theorems concretely: the
main target 0 accepts a dedicated session, every other target fails with the
fallback message. -/
def exampleEngine : Nat → Except String Nat :=
  fun t => if t = 0 then .ok 100 else .error sessionErrorNeedle

/-! ## Encoded element addresses

Embeds `encodeWithFrameId`, i.e. the template string
`` `${ordinal}-${backendId}` ``. JavaScript renders an integral number as its
plain base-10 numeral, with a leading `-` for negatives; `natDecimal` /
`intDecimal` embed exactly that rendering. -/

/-- Decimal digits of a natural number, most significant first. -/
def natDecimal (n : Nat) : List Char :=
  if n < 10 then [Nat.digitChar n]
  else natDecimal (n / 10) ++ [Nat.digitChar (n % 10)]
  termination_by n
  decreasing_by exact Nat.div_lt_self (by omega) (by omega)

/-- JavaScript rendering of an integer: a `-` sign followed by the digits of
its absolute value, or just the digits when non-negative. -/
def intDecimal (b : Int) : List Char :=
  if b < 0 then '-' :: natDecimal b.natAbs else natDecimal b.toNat

/-- The embedding of `encodeWithFrameId`: resolve the frame ordinal through
the allocator and produce `"<ordinal>-<backendId>"` (with the updated
allocator state). -/
def encodeWithFrameId (st : OrdinalState) (fid : Option String) (backendId : Int) :
    String × OrdinalState :=
  let r := ordinalForFrameId st fid
  (⟨natDecimal r.1 ++ '-' :: intDecimal backendId⟩, r.2)

/-- Numeric value of a decimal digit character, if it is one. -/
def digitVal? (c : Char) : Option Nat :=
  if '0' ≤ c ∧ c ≤ '9' then some (c.toNat - '0'.toNat) else none

/-- Accumulating base-10 reading of a digit string. -/
def parseNatAux : Nat → List Char → Option Nat
  | acc, [] => some acc
  | acc, c :: cs =>
    match digitVal? c with
    | some d => parseNatAux (acc * 10 + d) cs
    | none => none

/-- Base-10 reading of a non-empty digit string. -/
def parseNatDigits : List Char → Option Nat
  | [] => none
  | cs => parseNatAux 0 cs

/-- Signed base-10 reading: an optional leading `-` then digits. -/
def parseIntDigits (cs : List Char) : Option Int :=
  match cs with
  | '-' :: rest => (parseNatDigits rest).map (fun n => -(n : Int))
  | _ => (parseNatDigits cs).map (fun n => (n : Int))

/-- Split a character list at the first occurrence of `sep`, returning the
pieces before and after it. -/
def splitAtChar (sep : Char) : List Char → Option (List Char × List Char)
  | [] => none
  | c :: cs =>
    if c = sep then some ([], cs)
    else
      match splitAtChar sep cs with
      | none => none
      | some (a, b) => some (c :: a, b)

/-- Modelled from the spec: the decoder for encoded element addresses is not
part of `src/lib/StagehandPage.ts`; per the spec an encoded address is split
at its first `-` separator into a non-negative base-10 ordinal and an integer
backend id. -/
def parseEncodedId (s : String) : Option (Nat × Int) :=
  match splitAtChar '-' s.data with
  | none => none
  | some (a, b) =>
    match parseNatDigits a, parseIntDigits b with
    | some o, some i => some (o, i)
    | _, _ => none

/-! ## Shadow-Piercing Query Engine

Embeds the selector engine registered by `ensureStagehandSelectorEngine`:
`parseSelector`, the stack-based generator `traverseAllTrees` (with
`pushChildren`), and `query` / `queryAll`. An element carries its attributes,
its element children, an optional open shadow root and an optional closed
shadow root (present exactly when `window.__stagehand__.getClosedRoot`
resolves one). Shadow roots and document fragments are lists of element
children; non-element child nodes are inert for this traversal — they are
never yielded and contribute nothing to the stack — so they are omitted. -/

/-- A DOM element as seen by the selector engine. -/
inductive Elem : Type where
  | mk : List (String × String) → List Elem → Option (List Elem) → Option (List Elem) → Elem

/-- Attributes of an element. -/
def Elem.attrs : Elem → List (String × String)
  | .mk a _ _ _ => a

/-- Element children (`el.children`). -/
def Elem.childElems : Elem → List Elem
  | .mk _ c _ _ => c

/-- Open shadow root (`el.shadowRoot`), if any. -/
def Elem.openShadow : Elem → Option (List Elem)
  | .mk _ _ o _ => o

/-- Closed shadow root resolved by the backdoor, if any. -/
def Elem.closedShadow : Elem → Option (List Elem)
  | .mk _ _ _ c => c

/-- The embedding of `el.getAttribute(name)`. -/
def Elem.getAttribute (e : Elem) (name : String) : Option String :=
  alistGet e.attrs name

/-- A node that can sit on the traversal stack or be a query root: an element,
a document fragment / shadow root, or a document (with its optional
`documentElement`). -/
inductive DomNode : Type where
  | element : Elem → DomNode
  | fragment : List Elem → DomNode
  | document : Option Elem → DomNode

/-- Stack contribution of an optional shadow root: pushed as one fragment. -/
def optFragNodes : Option (List Elem) → List DomNode
  | none => []
  | some l => [.fragment l]

/-- Stack contribution of an optional `documentElement`. -/
def optElemNodes : Option Elem → List DomNode
  | none => []
  | some e => [.element e]

/-- What replaces a popped element on top of the stack, in pop order: the code
pushes the open root, then the closed root, then the children in reverse, so
the children pop first (in document order), then the closed root, then the
open root. -/
def expandElem (e : Elem) : List DomNode :=
  e.childElems.map .element ++ optFragNodes e.closedShadow ++ optFragNodes e.openShadow

mutual

/-- Number of element occurrences in the tree rooted at an element. -/
def Elem.esize (e : Elem) : Nat :=
  match e with
  | .mk _ cs os cl => 1 + elemsSize cs + optSize os + optSize cl
  termination_by sizeOf e
  decreasing_by all_goals (simp; try omega)

/-- Number of element occurrences in a forest. -/
def elemsSize (l : List Elem) : Nat :=
  match l with
  | [] => 0
  | e :: es => e.esize + elemsSize es
  termination_by sizeOf l
  decreasing_by all_goals (simp; try omega)

/-- Weight of an optional shadow root: one for the root object itself plus
its forest. -/
def optSize (o : Option (List Elem)) : Nat :=
  match o with
  | none => 0
  | some l => 1 + elemsSize l
  termination_by sizeOf o
  decreasing_by all_goals (simp; try omega)

end

/-- Termination weight of a stack entry: element count plus one per wrapper. -/
def nodeWeight : DomNode → Nat
  | .element e => e.esize
  | .fragment l => 1 + elemsSize l
  | .document none => 1
  | .document (some e) => 1 + e.esize

/-- Termination weight of the whole stack. -/
def stackWeight : List DomNode → Nat
  | [] => 0
  | n :: rest => nodeWeight n + stackWeight rest

theorem stackWeight_append (xs ys : List DomNode) :
    stackWeight (xs ++ ys) = stackWeight xs + stackWeight ys := by
  induction xs with
  | nil => simp [stackWeight]
  | cons n rest ih => simp [stackWeight, ih]; omega

theorem stackWeight_map_element (l : List Elem) :
    stackWeight (l.map DomNode.element) = elemsSize l := by
  induction l with
  | nil => simp [stackWeight, elemsSize]
  | cons e rest ih =>
    simp only [List.map_cons, stackWeight, nodeWeight]
    rw [ih, elemsSize]

theorem stackWeight_optFragNodes (o : Option (List Elem)) :
    stackWeight (optFragNodes o) = optSize o := by
  cases o with
  | none => simp [optFragNodes, stackWeight, optSize]
  | some l => simp [optFragNodes, stackWeight, nodeWeight, optSize]

theorem stackWeight_expandElem (e : Elem) :
    stackWeight (expandElem e) + 1 = e.esize := by
  obtain ⟨a, cs, os, cl⟩ := e
  simp only [expandElem, Elem.childElems, Elem.closedShadow, Elem.openShadow,
    stackWeight_append, stackWeight_map_element, stackWeight_optFragNodes]
  rw [Elem.esize]
  omega

/-- The embedding of the generator `traverseAllTrees` together with
`pushChildren`, driven by an explicit stack; the returned list is the sequence
of `yield`ed elements. -/
def traverseStack (stack : List DomNode) : List Elem :=
  match stack with
  | [] => []
  | .document d :: rest => traverseStack (optElemNodes d ++ rest)
  | .fragment l :: rest => traverseStack (l.map .element ++ rest)
  | .element e :: rest => e :: traverseStack (expandElem e ++ rest)
  termination_by stackWeight stack
  decreasing_by
  · cases d with
    | none => simp [optElemNodes, stackWeight, nodeWeight]
    | some de =>
      simp [optElemNodes, stackWeight, nodeWeight]
      try omega
  · simp only [stackWeight_append, stackWeight, stackWeight_map_element, nodeWeight]
    omega
  · have h1 := stackWeight_expandElem e
    simp only [stackWeight_append, stackWeight, nodeWeight]
    omega

/-- The generator applied to a start node: a document contributes its
`documentElement`, any other start node is pushed as-is. -/
def traverseAllTrees (start : DomNode) : List Elem :=
  traverseStack [start]

/-- JavaScript `trim`-relevant whitespace (the ASCII cases). -/
def jsIsWhitespace (c : Char) : Bool :=
  c = ' ' ∨ c = '\t' ∨ c = '\n' ∨ c = '\r' ∨ c = '\x0b' ∨ c = '\x0c'

/-- The embedding of `String.prototype.trim` on the character list. -/
def trimChars (cs : List Char) : List Char :=
  ((cs.dropWhile jsIsWhitespace).reverse.dropWhile jsIsWhitespace).reverse

/-- The embedding of `.replace(/^["']|["']$/g, "")`, left half: drop one
leading single or double quote. -/
def stripLeadingQuote : List Char → List Char
  | [] => []
  | c :: cs => if c = '"' ∨ c = '\'' then cs else c :: cs

/-- The embedding of `.replace(/^["']|["']$/g, "")`: drop one leading and then
one trailing single or double quote. -/
def stripQuotes (cs : List Char) : List Char :=
  (stripLeadingQuote (stripLeadingQuote cs).reverse).reverse

/-- The default attribute name used by a bare selector token. -/
def defaultAttr : String := "data-__stagehand-id"

/-- The embedding of `parseSelector`: trim the input; with no `=` the trimmed
token (unquoted) is matched against the default attribute, otherwise split at
the first `=` into a trimmed name and a trimmed, unquoted value. -/
def parseSelector (input : String) : String × String :=
  let raw := trimChars input.data
  match splitAtChar '=' raw with
  | none => (defaultAttr, ⟨stripQuotes raw⟩)
  | some (pre, post) => (⟨trimChars pre⟩, ⟨stripQuotes (trimChars post)⟩)

/-- The match test `el.getAttribute(name) === value` (`null` never equals a
string). -/
def selMatches (name value : String) (e : Elem) : Bool :=
  e.getAttribute name == some value

/-- The embedding of `query`: first traversed element whose attribute matches. -/
def query (root : DomNode) (selector : String) : Option Elem :=
  let p := parseSelector selector
  (traverseAllTrees root).find? (selMatches p.1 p.2)

/-- The embedding of `queryAll`: every traversed element whose attribute
matches, in traversal order. -/
def queryAll (root : DomNode) (selector : String) : List Elem :=
  let p := parseSelector selector
  (traverseAllTrees root).filter (selMatches p.1 p.2)

/-! ### Reference flattening of a DOM tree

`Elem.allElems` lists every element occurrence of a tree exactly once, in the
order the stack machine visits them (the node itself, then the child subtrees,
then the closed shadow subtree, then the open shadow subtree); it is the
specification the generator is compared against. -/

mutual

/-- All element occurrences of the tree rooted at an element. -/
def Elem.allElems : Elem → List Elem
  | .mk a cs os cl =>
    .mk a cs os cl :: (elemsAllElems cs ++ optAllElems cl ++ optAllElems os)
  termination_by e => sizeOf e

/-- All element occurrences of a forest, in order. -/
def elemsAllElems : List Elem → List Elem
  | [] => []
  | e :: es => e.allElems ++ elemsAllElems es
  termination_by l => sizeOf l

/-- All element occurrences below an optional shadow root. -/
def optAllElems : Option (List Elem) → List Elem
  | none => []
  | some l => elemsAllElems l
  termination_by o => sizeOf o

end

/-- All element occurrences reachable from a query root. -/
def nodeAllElems : DomNode → List Elem
  | .element e => e.allElems
  | .fragment l => elemsAllElems l
  | .document none => []
  | .document (some e) => e.allElems

/-- Occurrence of an element somewhere in the tree rooted at another element:
either the root itself, or (recursively) inside a child, the open shadow root,
or the closed shadow root. -/
inductive ElemIn : Elem → Elem → Prop where
  | refl (e : Elem) : ElemIn e e
  | viaChild {e c root : Elem} : c ∈ root.childElems → ElemIn e c → ElemIn e root
  | viaOpen {e c : Elem} {root : Elem} {l : List Elem} :
      root.openShadow = some l → c ∈ l → ElemIn e c → ElemIn e root
  | viaClosed {e c : Elem} {root : Elem} {l : List Elem} :
      root.closedShadow = some l → c ∈ l → ElemIn e c → ElemIn e root

/-- Occurrence of an element in the tree reachable from a query root. -/
def ElemInNode (e : Elem) : DomNode → Prop
  | .element r => ElemIn e r
  | .fragment l => ∃ c ∈ l, ElemIn e c
  | .document none => False
  | .document (some r) => ElemIn e r

/-! ## Association-list lemmas -/

theorem alistGet_alistSet_self {K V : Type} [DecidableEq K]
    (m : List (K × V)) (key : K) (val : V) :
    alistGet (alistSet m key val) key = some val := by
  induction m with
  | nil => simp [alistSet, alistGet]
  | cons p rest ih =>
    obtain ⟨k, v⟩ := p
    by_cases h : k = key
    · simp [alistSet, alistGet, h]
    · simp [alistSet, alistGet, h, ih]

theorem alistGet_alistSet_ne {K V : Type} [DecidableEq K]
    (m : List (K × V)) (key key' : K) (val : V) (h : key' ≠ key) :
    alistGet (alistSet m key val) key' = alistGet m key' := by
  have hne : key ≠ key' := Ne.symm h
  induction m with
  | nil => simp [alistSet, alistGet, hne]
  | cons p rest ih =>
    obtain ⟨k, v⟩ := p
    by_cases hk : k = key
    · subst hk
      simp [alistSet, alistGet, hne]
    · by_cases hk' : k = key'
      · simp [alistSet, alistGet, hk, hk', h]
      · simp [alistSet, alistGet, hk, hk', ih]

theorem alistSet_length_of_absent {K V : Type} [DecidableEq K]
    (m : List (K × V)) (key : K) (val : V) (h : alistGet m key = none) :
    (alistSet m key val).length = m.length + 1 := by
  induction m with
  | nil => simp [alistSet]
  | cons p rest ih =>
    obtain ⟨k, v⟩ := p
    by_cases hk : k = key
    · simp [alistGet, hk] at h
    · simp only [alistGet, hk, if_false] at h
      simp [alistSet, hk, ih h]

theorem key_unique_of_nodup {K V : Type} [DecidableEq K]
    {m : List (K × V)} (hnd : (m.map Prod.fst).Nodup)
    {k : K} {v v' : V} (h1 : (k, v) ∈ m) (h2 : (k, v') ∈ m) : v = v' := by
  induction m with
  | nil => cases h1
  | cons p rest ih =>
    obtain ⟨pk, pv⟩ := p
    rw [List.map_cons, List.nodup_cons] at hnd
    have hpk : ∀ w : V, (pk, w) ∈ rest → False := by
      intro w hw
      apply hnd.1
      rw [List.mem_map]
      exact ⟨(pk, w), hw, rfl⟩
    rcases List.mem_cons.mp h1 with h1' | h1' <;>
      rcases List.mem_cons.mp h2 with h2' | h2'
    · rw [Prod.mk.injEq] at h1' h2'
      exact h1'.2.trans h2'.2.symm
    · rw [Prod.mk.injEq] at h1'
      cases h1'.1
      exact (hpk v' h2').elim
    · rw [Prod.mk.injEq] at h2'
      cases h2'.1
      exact (hpk v h1').elim
    · exact ih hnd.2 h1' h2'

theorem setDelete_not_mem {l : List String} {x : String} (h : l.Nodup) :
    x ∉ setDelete l x := by
  induction l with
  | nil => simp [setDelete]
  | cons y rest ih =>
    rw [List.nodup_cons] at h
    by_cases hy : y = x
    · subst hy
      simpa [setDelete] using h.1
    · simp only [setDelete, hy, if_false, List.mem_cons]
      push_neg
      exact ⟨Ne.symm hy, ih h.2⟩

theorem alistDelete_key_not_mem {K V : Type} [DecidableEq K]
    {m : List (K × V)} {k : K} (hnd : (m.map Prod.fst).Nodup) :
    k ∉ (alistDelete m k).map Prod.fst := by
  induction m with
  | nil => simp [alistDelete]
  | cons p rest ih =>
    obtain ⟨k', v⟩ := p
    simp only [List.map_cons, List.nodup_cons] at hnd
    by_cases hk : k' = k
    · subst hk
      simpa [alistDelete] using hnd.1
    · simp only [alistDelete, hk, if_false, List.map_cons, List.mem_cons]
      push_neg
      exact ⟨Ne.symm hk, ih hnd.2⟩

/-! ## Frame Ordinal Allocator: claim C2 -/

/-- Claim C2: `ordinalForFrameId` for `undefined` always returns 0 and leaves
the state alone; repeated calls with the same frame id return the same ordinal
and state; two distinct previously-unseen frame ids receive strictly
increasing ordinals in order of first call; and after `resetFrameOrdinals`,
the first defined frame id seen receives ordinal 1. -/
theorem ordinal_allocator_spec :
    (∀ st : OrdinalState, ordinalForFrameId st none = (0, st)) ∧
    (∀ (st : OrdinalState) (fid : Option String),
      ordinalForFrameId (ordinalForFrameId st fid).2 fid = ordinalForFrameId st fid) ∧
    (∀ (st : OrdinalState) (s1 s2 : String), s1 ≠ s2 →
      alistGet st.fidOrdinals (some s1) = none →
      alistGet st.fidOrdinals (some s2) = none →
      (ordinalForFrameId st (some s1)).1 <
        (ordinalForFrameId (ordinalForFrameId st (some s1)).2 (some s2)).1) ∧
    (∀ (st : OrdinalState) (s : String),
      (ordinalForFrameId (resetFrameOrdinals st) (some s)).1 = 1) := by
  refine ⟨fun st => rfl, ?_, ?_, ?_⟩
  · intro st fid
    match fid with
    | none => rfl
    | some s =>
      cases hc : alistGet st.fidOrdinals (some s) with
      | some cached => simp [ordinalForFrameId, hc]
      | none => simp [ordinalForFrameId, hc, alistGet_alistSet_self]
  · intro st s1 s2 hne h1 h2
    have h2' : alistGet (alistSet st.fidOrdinals (some s1) st.fidOrdinals.length)
        (some s2) = none := by
      rw [alistGet_alistSet_ne _ _ _ _ (by simpa using Ne.symm hne)]
      exact h2
    simp only [ordinalForFrameId, h1, h2']
    rw [alistSet_length_of_absent _ _ _ h1]
    omega
  · intro st s
    rfl

/-- Witness for C2 at concrete inputs. -/
theorem ordinal_allocator_spec_witness :
    ordinalForFrameId initialOrdinals none = (0, initialOrdinals) ∧
    ordinalForFrameId (ordinalForFrameId initialOrdinals (some "a")).2 (some "a")
      = ordinalForFrameId initialOrdinals (some "a") ∧
    (ordinalForFrameId initialOrdinals (some "a")).1 <
      (ordinalForFrameId (ordinalForFrameId initialOrdinals (some "a")).2 (some "b")).1 ∧
    (ordinalForFrameId (resetFrameOrdinals initialOrdinals) (some "a")).1 = 1 :=
  ⟨ordinal_allocator_spec.1 initialOrdinals,
   ordinal_allocator_spec.2.1 initialOrdinals (some "a"),
   ordinal_allocator_spec.2.2.1 initialOrdinals "a" "b" (by decide) (by decide) (by decide),
   ordinal_allocator_spec.2.2.2 initialOrdinals "a"⟩

/-! ## Selector-engine registration: claim C9 -/

theorem iterateEnsureSelector_of_pos (n : Nat) (h : 1 ≤ n) :
    iterateEnsureSelector n = ⟨true, 1⟩ := by
  induction n with
  | zero => omega
  | succ k ih =>
    rcases Nat.eq_or_lt_of_le h with h1 | h1
    · have hk : k = 0 := by omega
      subst hk
      rfl
    · rw [iterateEnsureSelector, ih (by omega)]
      rfl

/-- Claim C9: however many times `ensureStagehandSelectorEngine` runs, the
engine reaches the host at most once, and every invocation after the first
leaves the process state untouched (a no-op, not an error). -/
theorem selector_engine_registered_at_most_once :
    (∀ n : Nat, (iterateEnsureSelector n).hostRegistrations ≤ 1) ∧
    (∀ n : Nat, 1 ≤ n → iterateEnsureSelector (n + 1) = iterateEnsureSelector n) := by
  constructor
  · intro n
    cases n with
    | zero => simp [iterateEnsureSelector, initialRegistry]
    | succ k => simp [iterateEnsureSelector_of_pos (k + 1) (by omega)]
  · intro n h
    rw [iterateEnsureSelector_of_pos n h, iterateEnsureSelector_of_pos (n + 1) (by omega)]

/-- Witness for C9 at concrete inputs. -/
theorem selector_engine_registered_at_most_once_witness :
    (iterateEnsureSelector 3).hostRegistrations ≤ 1 ∧
    iterateEnsureSelector 3 = iterateEnsureSelector 2 :=
  ⟨selector_engine_registered_at_most_once.1 3,
   selector_engine_registered_at_most_once.2 2 (by omega)⟩

/-! ## Settlement Detector: state-projection lemmas -/

@[simp] theorem clearQuiet_inflight (st : DetectorState) :
    (clearQuiet st).inflight = st.inflight := rfl

@[simp] theorem clearQuiet_meta (st : DetectorState) :
    (clearQuiet st).meta = st.meta := rfl

@[simp] theorem clearQuiet_docByFrame (st : DetectorState) :
    (clearQuiet st).docByFrame = st.docByFrame := rfl

@[simp] theorem clearQuiet_resolvedAt (st : DetectorState) :
    (clearQuiet st).resolvedAt = st.resolvedAt := rfl

@[simp] theorem maybeQuiet_inflight (now : Nat) (st : DetectorState) :
    (maybeQuiet now st).inflight = st.inflight := by
  unfold maybeQuiet
  split <;> rfl

@[simp] theorem maybeQuiet_meta (now : Nat) (st : DetectorState) :
    (maybeQuiet now st).meta = st.meta := by
  unfold maybeQuiet
  split <;> rfl

@[simp] theorem maybeQuiet_docByFrame (now : Nat) (st : DetectorState) :
    (maybeQuiet now st).docByFrame = st.docByFrame := by
  unfold maybeQuiet
  split <;> rfl

@[simp] theorem maybeQuiet_resolvedAt (now : Nat) (st : DetectorState) :
    (maybeQuiet now st).resolvedAt = st.resolvedAt := by
  unfold maybeQuiet
  split <;> rfl

@[simp] theorem finishReq_resolvedAt (now : Nat) (st : DetectorState) (id : String) :
    (finishReq now st id).resolvedAt = st.resolvedAt := by
  unfold finishReq
  split <;> simp

@[simp] theorem onRequest_resolvedAt (now : Nat) (st : DetectorState) (e : RequestEvent) :
    (onRequest now st e).resolvedAt = st.resolvedAt := by
  unfold onRequest
  split
  · rfl
  · cases e.frameId
    · rfl
    · dsimp only
      split <;> rfl

@[simp] theorem onDataUrl_resolvedAt (now : Nat) (st : DetectorState) (id url : String) :
    (onDataUrl now st id url).resolvedAt = st.resolvedAt := by
  unfold onDataUrl
  split <;> simp

@[simp] theorem onFrameStop_resolvedAt (now : Nat) (st : DetectorState) (f : String) :
    (onFrameStop now st f).resolvedAt = st.resolvedAt := by
  unfold onFrameStop
  split
  · split <;> simp
  · rfl

@[simp] theorem sweepOnce_resolvedAt (now : Nat) (st : DetectorState) :
    (sweepOnce now st).resolvedAt = st.resolvedAt := by
  unfold sweepOnce
  simp

/-! ## Claim C6: WebSocket / EventSource initiations are ignored -/

/-- Claim C6: a `Network.requestWillBeSent` whose resource type is WebSocket
or EventSource leaves the detector state completely unchanged — nothing enters
`inflight`, `meta` or `docByFrame`, and a pending quiet-window timer is not
cancelled, so such an initiation never delays settlement. -/
theorem websocket_eventsource_never_tracked (now : Nat) (st : DetectorState)
    (id url : String) (fid : Option String) :
    onRequest now st ⟨id, url, "WebSocket", fid⟩ = st ∧
    onRequest now st ⟨id, url, "EventSource", fid⟩ = st := by
  constructor
  · unfold onRequest
    exact if_pos (Or.inl rfl)
  · unfold onRequest
    exact if_pos (Or.inr rfl)

/-! ## Claim C10: completions for untracked request ids are no-ops -/

/-- Claim C10: a completion-type event (`loadingFinished`, `loadingFailed`,
`requestServedFromCache`, or a `data:` response) whose request id is not in
`inflight` leaves the whole detector state unchanged: `finishReq` returns
before touching `meta`, `docByFrame` or the quiet-window timer. -/
theorem completion_for_unknown_id_is_noop (now : Nat) (st : DetectorState)
    (id url : String) (h : id ∉ st.inflight) :
    finishReq now st id = st ∧
    step st now (.loadingFinished id) = st ∧
    step st now (.loadingFailed id) = st ∧
    step st now (.servedFromCache id) = st ∧
    step st now (.responseReceived id url) = st := by
  have hf : finishReq now st id = st := by
    unfold finishReq
    exact if_neg h
  refine ⟨hf, ?_, ?_, ?_, ?_⟩ <;>
    by_cases hr : st.resolvedAt.isSome <;>
      simp [step, hr, hf, onDataUrl]

/-- Witness for C10 at concrete inputs. -/
theorem completion_for_unknown_id_is_noop_witness :
    finishReq 7 initDetector "zzz" = initDetector ∧
    step initDetector 7 (.loadingFinished "zzz") = initDetector ∧
    step initDetector 7 (.loadingFailed "zzz") = initDetector ∧
    step initDetector 7 (.servedFromCache "zzz") = initDetector ∧
    step initDetector 7 (.responseReceived "zzz" "data:text/html") = initDetector :=
  completion_for_unknown_id_is_noop 7 initDetector "zzz" "data:text/html" (by decide)

/-! ## Claim C4: the stalled-request sweep -/

/-- Counterexample to C4 as stated: the sweep tests `now - start > 2000`
strictly, so a request whose age is exactly 2000 ms (at least 2000 ms, as the
claim has it) is NOT evicted from `inflight` / `meta`. -/
theorem sweep_keeps_request_aged_exactly_2000 :
    (onRequest 0 initDetector ⟨"r1", "u", "Other", none⟩).meta = [("r1", ⟨"u", 0⟩)] ∧
    stallThresholdMs ≤ 2000 - 0 ∧
    (sweepOnce 2000 (onRequest 0 initDetector ⟨"r1", "u", "Other", none⟩)).inflight
      = ["r1"] ∧
    (sweepOnce 2000 (onRequest 0 initDetector ⟨"r1", "u", "Other", none⟩)).meta
      = [("r1", ⟨"u", 0⟩)] := by decide

/-- Claim C4 (amended): the sweep interval is the constant 500 ms, and on each
firing every request whose age strictly exceeds 2000 ms is removed from both
`inflight` and `meta`; afterwards the quiet-window check is re-armed (a quiet
timer is started when `inflight` is now empty and none is pending). -/
theorem sweep_evicts_strictly_stalled (now : Nat) (st : DetectorState)
    (hnd : (st.meta.map Prod.fst).Nodup) :
    sweepIntervalMs = 500 ∧
    (∀ id m, (id, m) ∈ st.meta → stallThresholdMs < now - m.start →
      id ∉ (sweepOnce now st).inflight ∧
      id ∉ (sweepOnce now st).meta.map Prod.fst) ∧
    ((sweepOnce now st).inflight.isEmpty ∧ st.quietTimer = none →
      (sweepOnce now st).quietTimer = some (now + quietWindowMs)) := by
  refine ⟨rfl, ?_, ?_⟩
  · intro id m hm hstale
    constructor
    · have hids : id ∈ (st.meta.filter
          (fun p => decide (stallThresholdMs < now - p.2.start))).map Prod.fst := by
        rw [List.mem_map]
        exact ⟨(id, m), List.mem_filter.mpr ⟨hm, by simpa using hstale⟩, rfl⟩
      simp only [sweepOnce, maybeQuiet_inflight]
      intro hmem
      rw [List.mem_filter] at hmem
      simp only [decide_not, Bool.not_eq_eq_eq_not, Bool.not_true, decide_eq_false_iff_not]
        at hmem
      exact hmem.2 hids
    · simp only [sweepOnce, maybeQuiet_meta]
      intro hmem
      rw [List.mem_map] at hmem
      obtain ⟨p, hp, hfst⟩ := hmem
      obtain ⟨pid, pm⟩ := p
      cases hfst
      rw [List.mem_filter] at hp
      have hpm : pm = m := key_unique_of_nodup hnd hp.1 hm
      subst hpm
      simp only [decide_eq_true_eq] at hp
      exact hp.2 hstale
  · intro h
    obtain ⟨hemp, hqt⟩ := h
    simp only [sweepOnce, maybeQuiet_inflight] at hemp
    simp only [sweepOnce]
    unfold maybeQuiet
    rw [if_pos ⟨hemp, hqt⟩]

/-- Witness for the amended C4 at concrete inputs. -/
theorem sweep_evicts_strictly_stalled_witness :
    sweepIntervalMs = 500 ∧
    "r1" ∉ (sweepOnce 2500 (onRequest 0 initDetector ⟨"r1", "u", "Other", none⟩)).inflight :=
  let h := sweep_evicts_strictly_stalled 2500
    (onRequest 0 initDetector ⟨"r1", "u", "Other", none⟩) (by decide)
  ⟨h.1, (h.2.1 "r1" ⟨"u", 0⟩ (by decide) (by decide)).1⟩

/-! ## Claim C5: `Page.frameStoppedLoading` for a tracked document request -/

/-- Counterexample to C5 as stated: the sweep evicts `"r1"` from `inflight` /
`meta` but leaves the `docByFrame` entry behind; a later
`Page.frameStoppedLoading` for that frame then finds the entry, but
`finishReq` returns at the `inflight` test and the entry is never removed. -/
theorem frameStop_after_sweep_keeps_doc_entry :
    alistGet (sweepOnce 2500
      (onRequest 0 initDetector ⟨"r1", "u", "Document", some "f1"⟩)).docByFrame "f1"
      = some "r1" ∧
    "r1" ∉ (sweepOnce 2500
      (onRequest 0 initDetector ⟨"r1", "u", "Document", some "f1"⟩)).inflight ∧
    (onFrameStop 2500 (sweepOnce 2500
      (onRequest 0 initDetector ⟨"r1", "u", "Document", some "f1"⟩)) "f1").docByFrame
      = [("f1", "r1")] := by decide

/-- Claim C5 (amended): when the frame's tracked document request id is still
in `inflight` (and truthy), `Page.frameStoppedLoading` removes it from
`inflight`, `meta` and the frame→document map, even absent any
`Network.loadingFinished`; when the tracked id is no longer in `inflight`
(e.g. already evicted by the sweep) the handler leaves the entire state
unchanged, so the frame→document entry persists. -/
theorem frameStop_removes_tracked_inflight_request (now : Nat) (st : DetectorState)
    (f id : String) (hf : alistGet st.docByFrame f = some id) (hne : id ≠ "")
    (hnd : st.inflight.Nodup) (hmnd : (st.meta.map Prod.fst).Nodup) :
    (id ∈ st.inflight →
      id ∉ (onFrameStop now st f).inflight ∧
      id ∉ (onFrameStop now st f).meta.map Prod.fst ∧
      (∀ g, (g, id) ∉ (onFrameStop now st f).docByFrame)) ∧
    (id ∉ st.inflight → onFrameStop now st f = st) := by
  have hstep : onFrameStop now st f = finishReq now st id := by
    unfold onFrameStop
    rw [hf]
    simp [hne]
  constructor
  · intro hin
    have hbody : finishReq now st id = maybeQuiet now (clearQuiet
        { st with
          inflight := setDelete st.inflight id,
          meta := alistDelete st.meta id,
          docByFrame := st.docByFrame.filter (fun p => p.2 ≠ id) }) := by
      unfold finishReq
      rw [if_pos hin]
    rw [hstep, hbody]
    refine ⟨?_, ?_, ?_⟩
    · simpa using setDelete_not_mem hnd
    · simpa using alistDelete_key_not_mem hmnd
    · intro g hg
      simp only [maybeQuiet_docByFrame, clearQuiet_docByFrame] at hg
      rw [List.mem_filter] at hg
      simp at hg
  · intro hout
    rw [hstep]
    unfold finishReq
    exact if_neg hout

/-- Witness for the amended C5 at concrete inputs. -/
theorem frameStop_removes_tracked_inflight_request_witness :
    "r1" ∉ (onFrameStop 99
      (onRequest 0 initDetector ⟨"r1", "u", "Document", some "f1"⟩) "f1").inflight ∧
    ∀ g, (g, "r1") ∉ (onFrameStop 99
      (onRequest 0 initDetector ⟨"r1", "u", "Document", some "f1"⟩) "f1").docByFrame :=
  let h := frameStop_removes_tracked_inflight_request 99
    (onRequest 0 initDetector ⟨"r1", "u", "Document", some "f1"⟩) "f1" "r1"
    (by decide) (by decide) (by decide) (by decide)
  ⟨(h.1 (by decide)).1, (h.1 (by decide)).2.2⟩

/-! ## Claim C1: the guard timer always resolves the promise in time -/

theorem runEvents_cons (st : DetectorState) (te : Nat × DetEvent)
    (rest : List (Nat × DetEvent)) :
    runEvents st (te :: rest) = runEvents (step st te.1 te.2) rest := rfl

theorem step_resolvedAt (st : DetectorState) (now : Nat) (ev : DetEvent) :
    (step st now ev).resolvedAt = st.resolvedAt ∨
      (step st now ev).resolvedAt = some now := by
  by_cases hr : st.resolvedAt.isSome
  · left
    simp [step, hr]
  · cases ev <;> simp [step, hr]
    split
    · right
      rfl
    · left
      rfl

/-- Claim C1: for every timeout and every schedule of network/page events and
timer firings occurring no later than the guard deadline (including schedules
where new requests keep arriving forever and `inflight` never empties), the
`_waitForSettledDom` promise is resolved — `resolve()` is the only completion
the executor can perform, there is no rejection path — at some time no later
than `timeoutMs`, because the guard timer forces `resolveDone` from any state. -/
theorem waitForSettledDom_always_resolves (timeout : Nat)
    (evs : List (Nat × DetEvent)) (hts : ∀ te ∈ evs, te.1 ≤ timeout) :
    ∃ t, (runWithGuard timeout evs).resolvedAt = some t ∧ t ≤ timeout := by
  have key : ∀ (l : List (Nat × DetEvent)) (st : DetectorState),
      (∀ te ∈ l, te.1 ≤ timeout) →
      (st.resolvedAt = none ∨ ∃ t, st.resolvedAt = some t ∧ t ≤ timeout) →
      ((runEvents st l).resolvedAt = none ∨
        ∃ t, (runEvents st l).resolvedAt = some t ∧ t ≤ timeout) := by
    intro l
    induction l with
    | nil => exact fun st _ h => h
    | cons te rest ih =>
      intro st hl h
      rw [runEvents_cons]
      refine ih (step st te.1 te.2) (fun x hx => hl x (List.mem_cons_of_mem te hx)) ?_
      rcases step_resolvedAt st te.1 te.2 with hs | hs
      · rw [hs]
        exact h
      · right
        exact ⟨te.1, hs, hl te (List.mem_cons_self te rest)⟩
  rcases key evs initDetector hts (Or.inl rfl) with h | h
  · refine ⟨timeout, ?_, le_refl timeout⟩
    simp [runWithGuard, fireGuard, h, resolveDone]
  · obtain ⟨t, ht, hle⟩ := h
    refine ⟨t, ?_, hle⟩
    simp [runWithGuard, fireGuard, ht, resolveDone]

/-- Witness for C1 at a concrete schedule. -/
theorem waitForSettledDom_always_resolves_witness :
    ∃ t, (runWithGuard 30000
      [(100, .request ⟨"r1", "u", "Fetch", none⟩),
       (700, .sweepFire)]).resolvedAt = some t ∧ t ≤ 30000 :=
  waitForSettledDom_always_resolves 30000
    [(100, .request ⟨"r1", "u", "Fetch", none⟩), (700, .sweepFire)] (by decide)

/-! ## Claim C3: session acquisition, caching, aliasing and propagation -/

/-- Claim C3: `getCDPClient` returns the cached session when one exists (no
engine call); when creating a session fails with the engine's message saying
the target has no separate CDP session, it returns the main target's session
and caches it under the failed target's key, so every subsequent call for that
target returns the same session without re-attempting creation; any other
creation failure propagates to the caller unchanged. -/
theorem getCDPClient_spec {Target Session : Type} [DecidableEq Target] :
    (∀ (engine : Target → Except String Session) (main : Target) (fuel : Nat)
        (cache : List (Target × Session)) (target : Target) (s : Session),
      alistGet cache target = some s →
      getCDPClient engine main (fuel + 1) cache target = some (.ok (s, cache, []))) ∧
    (∀ (engine : Target → Except String Session) (main : Target) (fuel : Nat)
        (cache cache' : List (Target × Session)) (target : Target)
        (msg : String) (sMain : Session) (calls : List Target),
      alistGet cache target = none →
      engine target = .error msg →
      jsIncludes msg sessionErrorNeedle = true →
      getCDPClient engine main fuel cache main = some (.ok (sMain, cache', calls)) →
      getCDPClient engine main (fuel + 1) cache target
          = some (.ok (sMain, alistSet cache' target sMain, target :: calls)) ∧
        getCDPClient engine main (fuel + 1) (alistSet cache' target sMain) target
          = some (.ok (sMain, alistSet cache' target sMain, []))) ∧
    (∀ (engine : Target → Except String Session) (main : Target) (fuel : Nat)
        (cache : List (Target × Session)) (target : Target) (msg : String),
      alistGet cache target = none →
      engine target = .error msg →
      jsIncludes msg sessionErrorNeedle = false →
      getCDPClient engine main (fuel + 1) cache target = some (.error msg)) := by
  refine ⟨?_, ?_, ?_⟩
  · intro engine main fuel cache target s h
    simp [getCDPClient, h]
  · intro engine main fuel cache cache' target msg sMain calls h1 h2 h3 h4
    constructor
    · simp [getCDPClient, h1, h2, h3, h4]
    · simp [getCDPClient, alistGet_alistSet_self]
  · intro engine main fuel cache target msg h1 h2 h3
    simp [getCDPClient, h1, h2, h3]

/-- Witness for C3 at concrete inputs: target 1 is session-incapable, the
fallback resolves target 0 and caches the alias; the second call is served
from the cache with no engine call. -/
theorem getCDPClient_spec_witness :
    getCDPClient exampleEngine 0 2 [] 1
      = some (.ok (100, alistSet [(0, 100)] 1 100, [1, 0])) ∧
    getCDPClient exampleEngine 0 2 (alistSet [(0, 100)] 1 100) 1
      = some (.ok (100, alistSet [(0, 100)] 1 100, [])) :=
  getCDPClient_spec.2.1 exampleEngine 0 1 [] [(0, 100)] 1 sessionErrorNeedle 100 [0]
    rfl rfl (by decide) rfl

/-! ## Claim C7: encoded addresses round-trip -/

theorem digitVal_digitChar (d : Nat) (h : d < 10) :
    digitVal? (Nat.digitChar d) = some d := by
  interval_cases d <;> decide

theorem digitChar_ne_dash (d : Nat) (h : d < 10) : Nat.digitChar d ≠ '-' := by
  interval_cases d <;> decide

theorem natDecimal_ne_nil (n : Nat) : natDecimal n ≠ [] := by
  rw [natDecimal]
  split
  · simp
  · simp

theorem natDecimal_no_dash (n : Nat) : '-' ∉ natDecimal n := by
  induction n using Nat.strong_induction_on with
  | _ n ih =>
    rw [natDecimal]
    split
    · rename_i h
      simp only [List.mem_singleton]
      exact Ne.symm (digitChar_ne_dash n h)
    · rename_i h
      intro hmem
      rw [List.mem_append] at hmem
      rcases hmem with hmem | hmem
      · exact ih (n / 10) (Nat.div_lt_self (by omega) (by omega)) hmem
      · rw [List.mem_singleton] at hmem
        exact digitChar_ne_dash (n % 10) (Nat.mod_lt _ (by omega)) hmem.symm

theorem parseNatAux_append (acc : Nat) (xs ys : List Char) :
    parseNatAux acc (xs ++ ys) =
      match parseNatAux acc xs with
      | some a => parseNatAux a ys
      | none => none := by
  induction xs generalizing acc with
  | nil => rfl
  | cons c cs ih =>
    simp only [List.cons_append, parseNatAux]
    cases hd : digitVal? c with
    | some d => exact ih (acc * 10 + d)
    | none => rfl

theorem parseNatAux_natDecimal (n : Nat) : ∀ acc : Nat,
    parseNatAux acc (natDecimal n) = some (acc * 10 ^ (natDecimal n).length + n) := by
  induction n using Nat.strong_induction_on with
  | _ n ih =>
    intro acc
    rw [natDecimal]
    split
    · rename_i h
      simp [parseNatAux, digitVal_digitChar n h]
    · rename_i h
      rw [parseNatAux_append]
      have hdiv : n / 10 < n := Nat.div_lt_self (by omega) (by omega)
      rw [ih (n / 10) hdiv acc]
      have hm : n % 10 < 10 := Nat.mod_lt _ (by omega)
      have hdm : n / 10 * 10 + n % 10 = n := by omega
      have hgoal : (acc * 10 ^ (natDecimal (n / 10)).length + n / 10) * 10 + n % 10
          = acc * 10 ^ (natDecimal (n / 10) ++ [Nat.digitChar (n % 10)]).length + n := by
        rw [List.length_append, List.length_singleton, pow_succ]
        calc (acc * 10 ^ (natDecimal (n / 10)).length + n / 10) * 10 + n % 10
            = acc * (10 ^ (natDecimal (n / 10)).length * 10)
                + (n / 10 * 10 + n % 10) := by ring
          _ = acc * (10 ^ (natDecimal (n / 10)).length * 10) + n := by rw [hdm]
      show parseNatAux (acc * 10 ^ (natDecimal (n / 10)).length + n / 10)
          [Nat.digitChar (n % 10)]
        = some (acc * 10 ^ (natDecimal (n / 10) ++ [Nat.digitChar (n % 10)]).length + n)
      simp only [parseNatAux, digitVal_digitChar _ hm]
      exact congrArg some hgoal

theorem parseNatDigits_natDecimal (n : Nat) : parseNatDigits (natDecimal n) = some n := by
  cases hcs : natDecimal n with
  | nil => exact absurd hcs (natDecimal_ne_nil n)
  | cons c cs =>
    have h := parseNatAux_natDecimal n 0
    rw [hcs] at h
    have hpd : parseNatDigits (c :: cs) = parseNatAux 0 (c :: cs) := rfl
    rw [hpd, h]
    simp

theorem parseIntDigits_intDecimal (b : Int) : parseIntDigits (intDecimal b) = some b := by
  unfold intDecimal
  split
  · rename_i h
    show (parseNatDigits (natDecimal b.natAbs)).map (fun n => -(n : Int)) = some b
    rw [parseNatDigits_natDecimal]
    show some (-(b.natAbs : Int)) = some b
    exact congrArg some (by omega)
  · rename_i h
    have hnd : '-' ∉ natDecimal b.toNat := natDecimal_no_dash _
    cases hcs : natDecimal b.toNat with
    | nil => exact absurd hcs (natDecimal_ne_nil _)
    | cons c cs =>
      have hc : c ≠ '-' := by
        intro hceq
        rw [hcs] at hnd
        exact hnd (hceq ▸ List.mem_cons_self c cs)
      rw [parseIntDigits.eq_def]
      split
      · rename_i heq
        rw [List.cons.injEq] at heq
        exact absurd heq.1 hc
      · rw [← hcs, parseNatDigits_natDecimal]
        show some ((b.toNat : Int)) = some b
        exact congrArg some (by omega)

theorem splitAtChar_append (sep : Char) (xs ys : List Char) (h : sep ∉ xs) :
    splitAtChar sep (xs ++ sep :: ys) = some (xs, ys) := by
  induction xs with
  | nil => simp [splitAtChar]
  | cons c cs ih =>
    rw [List.mem_cons] at h
    push_neg at h
    rw [List.cons_append, splitAtChar]
    rw [if_neg (Ne.symm h.1)]
    rw [ih h.2]

/-- Claim C7: `encodeWithFrameId` produces the token `"<ordinal>-<backendId>"`
(the allocator's ordinal in base 10, a `-` separator, the backend id rendered
as a base-10 integer), and parsing at the first `-` separator recovers exactly
the same (ordinal, backendId) pair — both for the ordinal the allocator
produced and for every non-negative ordinal value. -/
theorem encode_roundtrip (st : OrdinalState) (fid : Option String) (b : Int) :
    (encodeWithFrameId st fid b).1.data
      = natDecimal (ordinalForFrameId st fid).1 ++ '-' :: intDecimal b ∧
    parseEncodedId (encodeWithFrameId st fid b).1
      = some ((ordinalForFrameId st fid).1, b) ∧
    ∀ o : Nat, parseEncodedId ⟨natDecimal o ++ '-' :: intDecimal b⟩ = some (o, b) := by
  have key : ∀ o : Nat, parseEncodedId ⟨natDecimal o ++ '-' :: intDecimal b⟩ = some (o, b) := by
    intro o
    show (match splitAtChar '-' (natDecimal o ++ '-' :: intDecimal b) with
      | none => none
      | some (a, c) =>
        match parseNatDigits a, parseIntDigits c with
        | some o', some i => some (o', i)
        | _, _ => none) = some (o, b)
    rw [splitAtChar_append '-' _ _ (natDecimal_no_dash o)]
    show (match parseNatDigits (natDecimal o), parseIntDigits (intDecimal b) with
      | some o', some i => some (o', i)
      | _, _ => none) = some (o, b)
    rw [parseNatDigits_natDecimal, parseIntDigits_intDecimal]
  exact ⟨rfl, key (ordinalForFrameId st fid).1, key⟩

/-! ## Claim C8: the shadow-piercing traversal and query engine -/

theorem join_map_element (l : List Elem) :
    ((l.map DomNode.element).map nodeAllElems).flatten = elemsAllElems l := by
  induction l with
  | nil => simp [elemsAllElems]
  | cons e es ih =>
    simp only [List.map_cons, List.flatten_cons, nodeAllElems]
    rw [ih]
    simp [elemsAllElems]

theorem join_map_optFrag (o : Option (List Elem)) :
    ((optFragNodes o).map nodeAllElems).flatten = optAllElems o := by
  cases o with
  | none => simp [optFragNodes, optAllElems]
  | some l =>
    simp only [optFragNodes, List.map_cons, List.map_nil, List.flatten_cons,
      List.flatten_nil, List.append_nil, nodeAllElems, optAllElems]

theorem join_map_expandElem (e : Elem) :
    ((expandElem e).map nodeAllElems).flatten
      = elemsAllElems e.childElems ++ optAllElems e.closedShadow
          ++ optAllElems e.openShadow := by
  simp only [expandElem, List.map_append, List.flatten_append]
  rw [join_map_element, join_map_optFrag, join_map_optFrag]

theorem traverseStack_eq_flat (ns : List DomNode) :
    traverseStack ns = (ns.map nodeAllElems).flatten := by
  induction ns using traverseStack.induct with
  | case1 => simp [traverseStack]
  | case2 d rest ih =>
    simp only [traverseStack]
    rw [ih]
    cases d with
    | none =>
      simp [optElemNodes, nodeAllElems]
    | some de =>
      simp only [optElemNodes, List.singleton_append, List.map_cons,
        List.flatten_cons, nodeAllElems]
  | case3 l rest ih =>
    simp only [traverseStack]
    rw [ih]
    simp only [List.map_append, List.flatten_append, List.map_cons,
      List.flatten_cons, nodeAllElems, join_map_element]
  | case4 e rest ih =>
    simp only [traverseStack]
    rw [ih]
    simp only [List.map_append, List.flatten_append, List.map_cons,
      List.flatten_cons, nodeAllElems, join_map_expandElem]
    obtain ⟨a, cs, os, cl⟩ := e
    simp only [Elem.allElems, Elem.childElems, Elem.closedShadow, Elem.openShadow,
      List.cons_append, List.append_assoc]

theorem find?_eq_head?_filter {α : Type} (p : α → Bool) (l : List α) :
    l.find? p = (l.filter p).head? := by
  induction l with
  | nil => rfl
  | cons x xs ih =>
    cases hx : p x
    · rw [List.find?_cons_of_neg, List.filter_cons_of_neg, ih]
      · simp [hx]
      · simp [hx]
    · rw [List.find?_cons_of_pos, List.filter_cons_of_pos]
      · rfl
      · exact hx
      · exact hx

theorem esize_pos (e : Elem) : 0 < e.esize := by
  obtain ⟨a, cs, os, cl⟩ := e
  simp only [Elem.esize]
  omega

theorem esize_le_of_mem {c : Elem} {l : List Elem} (h : c ∈ l) :
    c.esize ≤ elemsSize l := by
  induction l with
  | nil => cases h
  | cons x xs ih =>
    simp only [elemsSize]
    rcases List.mem_cons.mp h with h' | h'
    · rw [h']
      omega
    · have := ih h'
      omega

theorem mem_elemsAllElems {e c : Elem} {l : List Elem} (hc : c ∈ l)
    (he : e ∈ c.allElems) : e ∈ elemsAllElems l := by
  induction l with
  | nil => cases hc
  | cons x xs ih =>
    simp only [elemsAllElems, List.mem_append]
    rcases List.mem_cons.mp hc with h' | h'
    · left
      rw [← h']
      exact he
    · right
      exact ih h'

theorem exists_of_mem_elemsAllElems {e : Elem} {l : List Elem}
    (h : e ∈ elemsAllElems l) : ∃ c ∈ l, e ∈ c.allElems := by
  induction l with
  | nil => simp [elemsAllElems] at h
  | cons x xs ih =>
    simp only [elemsAllElems, List.mem_append] at h
    rcases h with h | h
    · exact ⟨x, List.mem_cons_self x xs, h⟩
    · obtain ⟨c, hc, he⟩ := ih h
      exact ⟨c, List.mem_cons_of_mem x hc, he⟩

theorem mem_allElems_of_elemIn {e r : Elem} (h : ElemIn e r) : e ∈ r.allElems := by
  induction h with
  | refl =>
    obtain ⟨a, cs, os, cl⟩ := e
    simp [Elem.allElems]
  | viaChild hc hin ih =>
    rename_i c root
    obtain ⟨a, cs, os, cl⟩ := root
    rw [Elem.childElems] at hc
    simp only [Elem.allElems, List.mem_cons, List.mem_append]
    exact Or.inr (Or.inl (Or.inl (mem_elemsAllElems hc ih)))
  | viaOpen hos hc hin ih =>
    rename_i c root l
    obtain ⟨a, cs, os, cl⟩ := root
    rw [Elem.openShadow] at hos
    subst hos
    simp only [Elem.allElems, List.mem_cons, List.mem_append, optAllElems]
    exact Or.inr (Or.inr (mem_elemsAllElems hc ih))
  | viaClosed hcl hc hin ih =>
    rename_i c root l
    obtain ⟨a, cs, os, cl⟩ := root
    rw [Elem.closedShadow] at hcl
    subst hcl
    simp only [Elem.allElems, List.mem_cons, List.mem_append, optAllElems]
    exact Or.inr (Or.inl (Or.inr (mem_elemsAllElems hc ih)))

theorem elemIn_of_mem_allElems : ∀ (k : Nat) (r e : Elem), r.esize ≤ k →
    e ∈ r.allElems → ElemIn e r := by
  intro k
  induction k with
  | zero =>
    intro r e hle _
    have := esize_pos r
    omega
  | succ k ih =>
    intro r e hle hmem
    obtain ⟨a, cs, os, cl⟩ := r
    have hsz : (Elem.mk a cs os cl).esize
        = 1 + elemsSize cs + optSize os + optSize cl := by
      simp [Elem.esize]
    simp only [Elem.allElems, List.mem_cons, List.mem_append] at hmem
    rcases hmem with hmem | hmem
    · rw [hmem]
      exact ElemIn.refl _
    · rcases hmem with hmem | hmem
      · rcases hmem with hmem | hmem
        · obtain ⟨c, hc, he⟩ := exists_of_mem_elemsAllElems hmem
          have hck : c.esize ≤ k := by
            have h1 := esize_le_of_mem hc
            omega
          exact ElemIn.viaChild hc (ih c e hck he)
        · cases cl with
          | none => simp [optAllElems] at hmem
          | some l =>
            simp only [optAllElems] at hmem
            obtain ⟨c, hc, he⟩ := exists_of_mem_elemsAllElems hmem
            have hck : c.esize ≤ k := by
              have h1 := esize_le_of_mem hc
              have h2 : optSize (some l) = 1 + elemsSize l := by simp [optSize]
              omega
            exact ElemIn.viaClosed rfl hc (ih c e hck he)
      · cases os with
        | none => simp [optAllElems] at hmem
        | some l =>
          simp only [optAllElems] at hmem
          obtain ⟨c, hc, he⟩ := exists_of_mem_elemsAllElems hmem
          have hck : c.esize ≤ k := by
            have h1 := esize_le_of_mem hc
            have h2 : optSize (some l) = 1 + elemsSize l := by simp [optSize]
            omega
          exact ElemIn.viaOpen rfl hc (ih c e hck he)

theorem elemIn_iff_mem_allElems (r e : Elem) : ElemIn e r ↔ e ∈ r.allElems :=
  ⟨mem_allElems_of_elemIn,
   fun h => elemIn_of_mem_allElems r.esize r e (le_refl _) h⟩

/-- Claim C8: over any DOM tree containing nested open and closed shadow roots
(closed ones being those the backdoor resolves), the stack-driven generator
yields exactly the canonical flattening of the tree — it reaches every element
occurrence exactly once, and an element appears in the output iff it occurs in
the tree — so `queryAll` returns exactly the elements whose named attribute
equals the selector's value, each exactly once in traversal order, and `query`
returns the first such element of the traversal, or none when no element
matches. -/
theorem query_engine_spec (root : DomNode) (selector : String) :
    traverseAllTrees root = nodeAllElems root ∧
    (∀ e : Elem, e ∈ traverseAllTrees root ↔ ElemInNode e root) ∧
    queryAll root selector = (nodeAllElems root).filter
      (selMatches (parseSelector selector).1 (parseSelector selector).2) ∧
    query root selector = (queryAll root selector).head? := by
  have htrav : traverseAllTrees root = nodeAllElems root := by
    show traverseStack [root] = nodeAllElems root
    rw [traverseStack_eq_flat]
    simp
  refine ⟨htrav, ?_, ?_, ?_⟩
  · intro e
    rw [htrav]
    cases root with
    | element r => exact (elemIn_iff_mem_allElems r e).symm
    | fragment l =>
      show e ∈ elemsAllElems l ↔ ∃ c ∈ l, ElemIn e c
      constructor
      · intro h
        obtain ⟨c, hc, he⟩ := exists_of_mem_elemsAllElems h
        exact ⟨c, hc, (elemIn_iff_mem_allElems c e).mpr he⟩
      · intro h
        obtain ⟨c, hc, he⟩ := h
        exact mem_elemsAllElems hc ((elemIn_iff_mem_allElems c e).mp he)
    | document d =>
      cases d with
      | none => simp [nodeAllElems, ElemInNode]
      | some r => exact (elemIn_iff_mem_allElems r e).symm
  · show (traverseAllTrees root).filter
        (selMatches (parseSelector selector).1 (parseSelector selector).2)
      = (nodeAllElems root).filter
        (selMatches (parseSelector selector).1 (parseSelector selector).2)
    rw [htrav]
  · show (traverseAllTrees root).find?
        (selMatches (parseSelector selector).1 (parseSelector selector).2)
      = ((traverseAllTrees root).filter
        (selMatches (parseSelector selector).1 (parseSelector selector).2)).head?
    exact find?_eq_head?_filter _ _

end Stagehand
